import Mathlib

/-!
Shallow embedding of the fixed-width `Bitset<NBits>` C++ class template.

The storage `std::array<underlying_t, arr_size>` is modelled as a
`List Nat` in storage order (least-significant word first); each word of
the C++ type holds `bits_per_word NBits` bits, and every operation is
translated word for word from the source.  Machine words are natural
numbers; bitwise complement `~w` on an `underlying_t` is rendered as
`Nat.xor (all_ones N) w`, which agrees with the machine operation on any
word `w < 2 ^ bits_per_word N`.
-/

namespace Bitset

/-- `underlying_t` width in bits: `uint64_t` if `NBits > 32`, else
`uint32_t` if `NBits > 16`, else `uint16_t` if `NBits > 8`, else `uint8_t`. -/
def bits_per_word (N : Nat) : Nat :=
  if N > 32 then 64 else if N > 16 then 32 else if N > 8 then 16 else 8

/-- `sizeof(underlying_t)` in bytes. -/
def word_bytes (N : Nat) : Nat := bits_per_word N / 8

/-- `std::numeric_limits<underlying_t>::max()`. -/
def all_ones (N : Nat) : Nat := 2 ^ bits_per_word N - 1

/-- `arr_size = (NBits + 63) / 64`. -/
def arr_size (N : Nat) : Nat := (N + 63) / 64

/-- `sizeof(storage_t)`: the storage footprint of `Bitset<N>` in bytes. -/
def sizeof_storage (N : Nat) : Nat := word_bytes N * arr_size N

/-- `bits_in_storage = sizeof(storage_t) * 8`. -/
def bits_in_storage (N : Nat) : Nat := sizeof_storage N * 8

/-- `which_word(pos) = pos / bits_per_word`. -/
def which_word (N pos : Nat) : Nat := pos / bits_per_word N

/-- `which_bit(pos) = pos % bits_per_word`. -/
def which_bit (N pos : Nat) : Nat := pos % bits_per_word N

/-- `mask_bit(pos) = underlying_t(1) << which_bit(pos)`. -/
def mask_bit (N pos : Nat) : Nat := 1 <<< which_bit N pos

/-- `get_msb_mask()`: `all_ones` when `NBits == bits_in_storage`; in the
other branch the source computes `(1 << (NBits % bits_per_word)) - 1` on
the *`int`-typed* literal `1` (32 bits — contrast `mask_bit`, which
shifts `underlying_t(1)`).  A shift count of 31 produces `INT_MIN`, so
the subsequent `- 1` overflows `int`, and a count of 32 or more shifts
past the width of `int`; both cases are undefined, and for counts ≥ 32
no `int` value can even represent the intended mask.  Those cases are
rendered as `Option.none`; for counts ≤ 30 the `int` result `2^k - 1`
converts losslessly to `underlying_t`. -/
def get_msb_mask (N : Nat) : Option Nat :=
  if N = bits_in_storage N then some (all_ones N)
  else if N % bits_per_word N < 31 then some ((1 <<< (N % bits_per_word N)) - 1)
  else none

/-- `get_msb_word() &= get_msb_mask()`: mask the last storage word;
undefined when the mask computation is. -/
def apply_msb_mask (N : Nat) (bs : List Nat) : Option (List Nat) :=
  (get_msb_mask N).map
    (fun m => bs.set (arr_size N - 1) (bs.getD (arr_size N - 1) 0 &&& m))

/-- The default constructor: storage zero-initialised. -/
def mk_zero (N : Nat) : List Nat := List.replicate (arr_size N) 0

/-- The single-word constructor (`requires NBits <= 64`): storage holds
the given word, then the MSB mask is applied. -/
def of_word (N : Nat) (w : Nat) : Option (List Nat) :=
  apply_msb_mask N (w :: List.replicate (arr_size N - 1) 0)

/-- The word-array constructor (`requires NBits > 64`): the words are
given in reading order (most-significant first), reversed into storage
order, then the MSB mask is applied. -/
def of_words (N : Nat) (ws : List Nat) : Option (List Nat) :=
  apply_msb_mask N ws.reverse

/-- `test(pos) = to_bool(get_word(pos) >> which_bit(pos))`, i.e. bit
`which_bit(pos)` of word `which_word(pos)`. -/
def test (N : Nat) (bs : List Nat) (pos : Nat) : Bool :=
  Nat.testBit (bs.getD (which_word N pos) 0) (which_bit N pos)

/-- Bulk `set()`: every word becomes `all_ones`, then the MSB mask is
re-applied; undefined when the mask computation is. -/
def set (N : Nat) (bs : List Nat) : Option (List Nat) :=
  apply_msb_mask N (bs.map (fun _ => all_ones N))

/-- `set(pos, value)`: `get_word(pos) |= mask_bit(pos)` when `value`,
else `get_word(pos) &= ~mask_bit(pos)`. -/
def set_pos (N : Nat) (bs : List Nat) (pos : Nat) (value : Bool) : List Nat :=
  if value then
    bs.set (which_word N pos) (bs.getD (which_word N pos) 0 ||| mask_bit N pos)
  else
    bs.set (which_word N pos)
      (bs.getD (which_word N pos) 0 &&& (all_ones N ^^^ mask_bit N pos))

/-- Bulk `reset()`: every word becomes zero. -/
def reset (N : Nat) (bs : List Nat) : List Nat := bs.map (fun _ => 0)

/-- `reset(pos) = set(pos, false)`. -/
def reset_pos (N : Nat) (bs : List Nat) (pos : Nat) : List Nat :=
  set_pos N bs pos false

/-- Bulk `flip()` exactly as written in the source: every word is
complemented; the source applies no MSB mask afterwards (and its body
has no return statement). -/
def flip (N : Nat) (bs : List Nat) : List Nat :=
  bs.map (fun w => all_ones N ^^^ w)

/-- `flip(pos)`: `get_word(pos) ^= mask_bit(pos)`. -/
def flip_pos (N : Nat) (bs : List Nat) (pos : Nat) : List Nat :=
  bs.set (which_word N pos) (bs.getD (which_word N pos) 0 ^^^ mask_bit N pos)

/-- `all()`: true iff every storage word equals `all_ones`. -/
def all (N : Nat) (bs : List Nat) : Bool :=
  bs.all (fun w => w == all_ones N)

/-- `std::countr_zero` on a `width`-bit word. -/
def countr_zero : Nat → Nat → Nat
  | 0, _ => 0
  | k + 1, w => if w % 2 == 1 then 0 else countr_zero k (w / 2) + 1

/-- `std::countr_one` on a `width`-bit word. -/
def countr_one : Nat → Nat → Nat
  | 0, _ => 0
  | k + 1, w => if w % 2 == 1 then countr_one k (w / 2) + 1 else 0

/-- The scanning loop of `find_first_one`, word index `i` onwards. -/
def find_first_one_go (N : Nat) : Nat → List Nat → Nat
  | _, [] => N
  | i, w :: ws =>
    if w ≠ 0 then countr_zero (bits_per_word N) w + i * bits_per_word N
    else find_first_one_go N (i + 1) ws

/-- `find_first_one()`: scan words from least significant, return
`countr_zero` of the first nonzero word plus its offset; `size()` if none. -/
def find_first_one (N : Nat) (bs : List Nat) : Nat :=
  find_first_one_go N 0 bs

/-- The scanning loop of `find_first_zero`, word index `i` onwards. -/
def find_first_zero_go (N : Nat) : Nat → List Nat → Nat
  | _, [] => N
  | i, w :: ws =>
    if w ≠ all_ones N then countr_one (bits_per_word N) w + i * bits_per_word N
    else find_first_zero_go N (i + 1) ws

/-- `find_first_zero()`: scan words from least significant, return
`countr_one` of the first non-all-ones word plus its offset; `size()` if
none. -/
def find_first_zero (N : Nat) (bs : List Nat) : Nat :=
  find_first_zero_go N 0 bs

/-- `test` guarded by `get_word`'s `assert(pos < size())`: the assertion
failure is rendered as `Option.none`. -/
def test_checked (N : Nat) (bs : List Nat) (pos : Nat) : Option Bool :=
  if pos < N then some (test N bs pos) else none

/-- `set(pos, value)` guarded by `get_word`'s `assert(pos < size())`. -/
def set_pos_checked (N : Nat) (bs : List Nat) (pos : Nat) (value : Bool) :
    Option (List Nat) :=
  if pos < N then some (set_pos N bs pos value) else none

/-- `reset(pos)` guarded by `get_word`'s `assert(pos < size())`. -/
def reset_pos_checked (N : Nat) (bs : List Nat) (pos : Nat) : Option (List Nat) :=
  if pos < N then some (reset_pos N bs pos) else none

/-- `flip(pos)` guarded by `get_word`'s `assert(pos < size())`. -/
def flip_pos_checked (N : Nat) (bs : List Nat) (pos : Nat) : Option (List Nat) :=
  if pos < N then some (flip_pos N bs pos) else none

/-! ### Arithmetic facts about the word geometry -/

theorem bits_per_word_pos (N : Nat) : 0 < bits_per_word N := by
  unfold bits_per_word
  split <;> [decide; split] <;> [decide; split] <;> decide

theorem bits_in_storage_eq (N : Nat) :
    bits_in_storage N = arr_size N * bits_per_word N := by
  unfold bits_in_storage sizeof_storage word_bytes bits_per_word arr_size
  split <;> [skip; split] <;> [skip; skip; split] <;> omega

theorem le_bits_in_storage (N : Nat) : N ≤ arr_size N * bits_per_word N := by
  unfold bits_per_word arr_size
  split <;> [skip; split] <;> [skip; skip; split] <;> omega

theorem which_word_lt {N pos : Nat} (h : pos < N) :
    which_word N pos < arr_size N := by
  have hb := bits_per_word_pos N
  have hs := le_bits_in_storage N
  unfold which_word
  exact Nat.div_lt_iff_lt_mul hb |>.mpr (Nat.lt_of_lt_of_le h hs)

theorem which_bit_lt (N pos : Nat) : which_bit N pos < bits_per_word N :=
  Nat.mod_lt _ (bits_per_word_pos N)

theorem mask_bit_eq (N pos : Nat) : mask_bit N pos = 2 ^ which_bit N pos := by
  unfold mask_bit
  rw [Nat.shiftLeft_eq, Nat.one_mul]

theorem which_ne_of_ne {N pos q : Nat} (hw : which_word N q = which_word N pos)
    (hne : q ≠ pos) : which_bit N q ≠ which_bit N pos := by
  intro hb
  apply hne
  unfold which_word at hw
  unfold which_bit at hb
  rw [← Nat.div_add_mod q (bits_per_word N), ← Nat.div_add_mod pos (bits_per_word N),
    hw, hb]

theorem msb_split {N : Nat} (h0 : 0 < N) (h : N ≠ arr_size N * bits_per_word N) :
    (arr_size N - 1) * bits_per_word N + N % bits_per_word N = N := by
  unfold bits_per_word arr_size at *
  by_cases h32 : N > 32
  · simp only [if_pos h32] at *
    omega
  · by_cases h16 : N > 16
    · simp only [if_neg h32, if_pos h16] at *
      omega
    · by_cases h8 : N > 8
      · simp only [if_neg h32, if_neg h16, if_pos h8] at *
        omega
      · simp only [if_neg h32, if_neg h16, if_neg h8] at *
        omega

/-! ### List access helpers -/

theorem getD_set_self {l : List Nat} {i : Nat} (v d : Nat) (h : i < l.length) :
    (l.set i v).getD i d = v := by
  rw [List.getD_eq_getElem?_getD, List.getElem?_set_eq_of_lt v h]
  rfl

theorem getD_set_ne {l : List Nat} {i j : Nat} (v d : Nat) (h : i ≠ j) :
    (l.set i v).getD j d = l.getD j d := by
  rw [List.getD_eq_getElem?_getD, List.getElem?_set_ne h, ← List.getD_eq_getElem?_getD]

theorem getD_replicate {m i : Nat} (c d : Nat) (h : i < m) :
    (List.replicate m c).getD i d = c := by
  rw [List.getD_eq_getElem?_getD, List.getElem?_replicate_of_lt h]
  rfl

/-! ### Bit masks as powers of two -/

theorem all_ones_eq (N : Nat) : all_ones N = 2 ^ bits_per_word N - 1 := rfl

theorem testBit_all_ones (N i : Nat) :
    Nat.testBit (all_ones N) i = decide (i < bits_per_word N) := by
  rw [all_ones_eq, Nat.testBit_two_pow_sub_one]

theorem get_msb_mask_exact {N : Nat} (h : N = bits_in_storage N) :
    get_msb_mask N = some (all_ones N) := by
  unfold get_msb_mask
  rw [if_pos h]

theorem get_msb_mask_small {N : Nat} (h1 : N ≠ bits_in_storage N)
    (h2 : N % bits_per_word N < 31) :
    get_msb_mask N = some (2 ^ (N % bits_per_word N) - 1) := by
  unfold get_msb_mask
  rw [if_neg h1, if_pos h2, Nat.shiftLeft_eq, Nat.one_mul]

theorem get_msb_mask_ub {N : Nat} (h1 : N ≠ bits_in_storage N)
    (h2 : ¬ N % bits_per_word N < 31) :
    get_msb_mask N = Option.none := by
  unfold get_msb_mask
  rw [if_neg h1, if_neg h2]

theorem land_all_ones {N m : Nat} (h : m < 2 ^ bits_per_word N) :
    all_ones N &&& m = m := by
  apply Nat.eq_of_testBit_eq
  intro i
  rw [Nat.testBit_and, testBit_all_ones]
  by_cases hi : i < bits_per_word N
  · simp [hi]
  · rw [Nat.testBit_lt_two_pow (Nat.lt_of_lt_of_le h (Nat.pow_le_pow_right (by decide) (Nat.le_of_not_lt hi)))]
    simp [hi]

theorem get_msb_mask_lt {N m : Nat} (hm : get_msb_mask N = some m) :
    m < 2 ^ bits_per_word N := by
  have h1 : 0 < 2 ^ bits_per_word N := Nat.pos_pow_of_pos _ (by decide)
  have h2 : 2 ^ (N % bits_per_word N) ≤ 2 ^ bits_per_word N :=
    Nat.pow_le_pow_right (by decide) (Nat.le_of_lt (Nat.mod_lt _ (bits_per_word_pos N)))
  by_cases hc1 : N = bits_in_storage N
  · rw [get_msb_mask_exact hc1] at hm
    rw [← Option.some_inj.mp hm, all_ones_eq]
    omega
  · by_cases hc2 : N % bits_per_word N < 31
    · rw [get_msb_mask_small hc1 hc2] at hm
      rw [← Option.some_inj.mp hm]
      omega
    · rw [get_msb_mask_ub hc1 hc2] at hm
      exact Option.noConfusion hm

theorem testBit_get_msb_mask {N m : Nat} (hm : get_msb_mask N = some m) (i : Nat) :
    Nat.testBit m i =
      decide (i < if N = bits_in_storage N then bits_per_word N
                  else N % bits_per_word N) := by
  by_cases hc1 : N = bits_in_storage N
  · rw [get_msb_mask_exact hc1] at hm
    rw [← Option.some_inj.mp hm, if_pos hc1, all_ones_eq, Nat.testBit_two_pow_sub_one]
  · by_cases hc2 : N % bits_per_word N < 31
    · rw [get_msb_mask_small hc1 hc2] at hm
      rw [← Option.some_inj.mp hm, if_neg hc1, Nat.testBit_two_pow_sub_one]
    · rw [get_msb_mask_ub hc1 hc2] at hm
      exact Option.noConfusion hm

/-! ### Trailing-zero / trailing-one counts via `testBit` -/

theorem countr_zero_eq {b : Nat} : ∀ {w width : Nat}, Nat.testBit w b = true →
    (∀ i, i < b → Nat.testBit w i = false) → b < width → countr_zero width w = b := by
  induction b with
  | zero =>
    intro w width h0 _ hb
    cases width with
    | zero => omega
    | succ k =>
      have hw : w % 2 = 1 := by simpa using h0
      simp [countr_zero, hw]
  | succ b ih =>
    intro w width h0 h1 hb
    cases width with
    | zero => omega
    | succ k =>
      have hw : w % 2 = 0 := by
        have hz := h1 0 (Nat.succ_pos b)
        rw [Nat.testBit_zero] at hz
        simp at hz
        omega
      have step : countr_zero (k + 1) w = countr_zero k (w / 2) + 1 := by
        simp [countr_zero, hw]
      rw [step, ih ?_ ?_ ?_]
      · rw [Nat.testBit_div_two]
        exact h0
      · intro i hi
        rw [Nat.testBit_div_two]
        exact h1 (i + 1) (by omega)
      · omega

theorem countr_one_eq {b : Nat} : ∀ {w width : Nat}, Nat.testBit w b = false →
    (∀ i, i < b → Nat.testBit w i = true) → b < width → countr_one width w = b := by
  induction b with
  | zero =>
    intro w width h0 _ hb
    cases width with
    | zero => omega
    | succ k =>
      have hw : w % 2 = 0 := by
        rw [Nat.testBit_zero] at h0
        simp at h0
        omega
      simp [countr_one, hw]
  | succ b ih =>
    intro w width h0 h1 hb
    cases width with
    | zero => omega
    | succ k =>
      have hw : w % 2 = 1 := by simpa using h1 0 (Nat.succ_pos b)
      have step : countr_one (k + 1) w = countr_one k (w / 2) + 1 := by
        simp [countr_one, hw]
      rw [step, ih ?_ ?_ ?_]
      · rw [Nat.testBit_div_two]
        exact h0
      · intro i hi
        rw [Nat.testBit_div_two]
        exact h1 (i + 1) (by omega)
      · omega

/-! ### The word-scanning loops -/

theorem find_first_one_go_all_zero (N : Nat) :
    ∀ (l : List Nat) (i : Nat), (∀ w ∈ l, w = 0) → find_first_one_go N i l = N := by
  intro l
  induction l with
  | nil => intro i _; rfl
  | cons w ws ih =>
    intro i h
    have hw : w = 0 := h w (List.mem_cons_self w ws)
    subst hw
    simp only [find_first_one_go, ne_eq, not_true_eq_false, if_neg, ite_false,
      not_not, reduceIte]
    exact ih (i + 1) (fun x hx => h x (List.mem_cons_of_mem _ hx))

theorem find_first_one_go_spec (N : Nat) :
    ∀ (j : Nat) (l : List Nat) (i : Nat),
      (∀ t, t < j → l.getD t 0 = 0) → l.getD j 0 ≠ 0 → j < l.length →
      find_first_one_go N i l =
        countr_zero (bits_per_word N) (l.getD j 0) + (i + j) * bits_per_word N := by
  intro j
  induction j with
  | zero =>
    intro l i _ hW hlen
    cases l with
    | nil => simp at hlen
    | cons w ws =>
      rw [List.getD_cons_zero] at hW ⊢
      simp [find_first_one_go, hW]
  | succ j ih =>
    intro l i h0 hW hlen
    cases l with
    | nil => simp at hlen
    | cons w ws =>
      have hw : w = 0 := by
        have := h0 0 (Nat.succ_pos j)
        rwa [List.getD_cons_zero] at this
      subst hw
      rw [List.getD_cons_succ]
      simp only [find_first_one_go, ne_eq, not_true_eq_false, not_not, reduceIte]
      rw [ih ws (i + 1) ?_ ?_ ?_]
      · have harith : i + 1 + j = i + (j + 1) := by omega
        rw [harith]
      · intro t ht
        have := h0 (t + 1) (by omega)
        rwa [List.getD_cons_succ] at this
      · rwa [List.getD_cons_succ] at hW
      · simpa using Nat.lt_of_succ_lt_succ (by simpa using hlen)

theorem find_first_zero_go_all_ones (N : Nat) :
    ∀ (l : List Nat) (i : Nat), (∀ w ∈ l, w = all_ones N) →
      find_first_zero_go N i l = N := by
  intro l
  induction l with
  | nil => intro i _; rfl
  | cons w ws ih =>
    intro i h
    have hw : w = all_ones N := h w (List.mem_cons_self w ws)
    subst hw
    simp only [find_first_zero_go, ne_eq, not_true_eq_false, not_not, reduceIte]
    exact ih (i + 1) (fun x hx => h x (List.mem_cons_of_mem _ hx))

theorem find_first_zero_go_spec (N : Nat) :
    ∀ (j : Nat) (l : List Nat) (i : Nat),
      (∀ t, t < j → l.getD t 0 = all_ones N) → l.getD j 0 ≠ all_ones N →
      j < l.length →
      find_first_zero_go N i l =
        countr_one (bits_per_word N) (l.getD j 0) + (i + j) * bits_per_word N := by
  intro j
  induction j with
  | zero =>
    intro l i _ hW hlen
    cases l with
    | nil => simp at hlen
    | cons w ws =>
      rw [List.getD_cons_zero] at hW ⊢
      simp [find_first_zero_go, hW]
  | succ j ih =>
    intro l i h0 hW hlen
    cases l with
    | nil => simp at hlen
    | cons w ws =>
      have hw : w = all_ones N := by
        have := h0 0 (Nat.succ_pos j)
        rwa [List.getD_cons_zero] at this
      subst hw
      rw [List.getD_cons_succ]
      simp only [find_first_zero_go, ne_eq, not_true_eq_false, not_not, reduceIte]
      rw [ih ws (i + 1) ?_ ?_ ?_]
      · have harith : i + 1 + j = i + (j + 1) := by omega
        rw [harith]
      · intro t ht
        have := h0 (t + 1) (by omega)
        rwa [List.getD_cons_succ] at this
      · rwa [List.getD_cons_succ] at hW
      · simpa using Nat.lt_of_succ_lt_succ (by simpa using hlen)

theorem length_reset (N : Nat) (bs : List Nat) : (reset N bs).length = bs.length := by
  simp [reset]

theorem getD_reset {N : Nat} {bs : List Nat} {t : Nat} (ht : t < bs.length) :
    (reset N bs).getD t 0 = 0 := by
  unfold reset
  rw [List.getD_eq_getElem?_getD, List.getElem?_map, List.getElem?_eq_getElem ht]
  rfl

theorem set_pos_true_eq (N : Nat) (bs : List Nat) (pos : Nat) :
    set_pos N bs pos true =
      bs.set (which_word N pos) (bs.getD (which_word N pos) 0 ||| mask_bit N pos) := rfl

theorem set_pos_false_eq (N : Nat) (bs : List Nat) (pos : Nat) :
    set_pos N bs pos false =
      bs.set (which_word N pos)
        (bs.getD (which_word N pos) 0 &&& (all_ones N ^^^ mask_bit N pos)) := rfl

theorem test_eq (N : Nat) (bs : List Nat) (pos : Nat) :
    test N bs pos = Nat.testBit (bs.getD (which_word N pos) 0) (which_bit N pos) := rfl

/-! ### Claim theorems -/

/-- C1 (code bug, evaluated at the failing input): starting from the
reachable all-zero `Bitset<1>`, the bulk `flip()` of the source leaves
storage bit 1 — a bit at position ≥ N = 1 — set, violating the MSB
masking invariant, whereas the bulk `set()` masks that same bit back to
zero. -/
theorem flip_breaks_msb_invariant :
    Nat.testBit ((mk_zero 1).getD 0 0) 1 = false ∧
    Nat.testBit ((flip 1 (mk_zero 1)).getD 0 0) 1 = true ∧
    (set 1 (mk_zero 1)).map (fun bs => Nat.testBit (bs.getD 0 0) 1) = some false := by
  decide

/-- C2 (code bug, evaluated at the failing input): for N = 9 (not a
multiple of the 16-bit word width), after `set()` every one of the 9
logical bits reads back 1 via `test`, yet `all()` returns `false`
because it compares the masked most-significant word against the
all-ones pattern. -/
theorem all_false_after_set :
    (set 9 (mk_zero 9)).map (fun bs => (List.range 9).all (fun p => test 9 bs p))
      = some true ∧
    (set 9 (mk_zero 9)).map (fun bs => all 9 bs) = some false := by
  decide

/-- C3 (code bug, evaluated): the claim's four examples hold — all-ones
at the exact widths N = 8 and 64, 0x01FF at N = 9, 0x0001 at N = 65 —
but the universal formula `(1 << (N mod word_width)) − 1` fails for
every N whose shift count `N mod word_width` is 31 or more
(N = 31, 33..63, and N > 64 with N mod 64 in 31..63): there the source
shifts the 32-bit `int` literal `1` by ≥ 31, which is undefined and
cannot represent the intended mask, rendered `Option.none` in the
model. -/
theorem get_msb_mask_int_shift_ub :
    get_msb_mask 33 = Option.none ∧ get_msb_mask 31 = Option.none ∧
    get_msb_mask 40 = Option.none ∧ get_msb_mask 96 = Option.none ∧
    get_msb_mask 30 = some (2 ^ 30 - 1) ∧
    get_msb_mask 8 = some 0xFF ∧ get_msb_mask 9 = some 0x01FF ∧
    get_msb_mask 64 = some (2 ^ 64 - 1) ∧ get_msb_mask 65 = some 0x0001 := by
  decide

/-- C8 counterexample: for N = 1 the storage footprint is 1 byte,
whereas 8 · ceil(1/64) = 8 bytes; the claimed formula fails. -/
theorem footprint_formula_counterexample :
    sizeof_storage 1 = 1 ∧ 8 * arr_size 1 = 8 ∧
    sizeof_storage 1 ≠ 8 * arr_size 1 := by
  decide

/-- C8 (amended): the words sequence has length ceil(N/64); the storage
footprint is `sizeof(word) · ceil(N/64)` bytes — which equals
`8 · ceil(N/64)` only once N > 32 forces 64-bit words — consistent with
the table N=1→1, 8→1, 9→2, 16→2, 17→4, 32→4, 33→8, 64→8, 65→16,
128→16 bytes. -/
theorem storage_footprint (N : Nat) :
    (mk_zero N).length = (N + 63) / 64 ∧
    sizeof_storage N = word_bytes N * ((N + 63) / 64) ∧
    (32 < N → sizeof_storage N = 8 * ((N + 63) / 64)) ∧
    (sizeof_storage 1 = 1 ∧ sizeof_storage 8 = 1 ∧ sizeof_storage 9 = 2 ∧
     sizeof_storage 16 = 2 ∧ sizeof_storage 17 = 4 ∧ sizeof_storage 32 = 4 ∧
     sizeof_storage 33 = 8 ∧ sizeof_storage 64 = 8 ∧ sizeof_storage 65 = 16 ∧
     sizeof_storage 128 = 16) := by
  refine ⟨?_, rfl, ?_, by decide⟩
  · simp [mk_zero, arr_size]
  · intro h
    unfold sizeof_storage word_bytes bits_per_word arr_size
    rw [if_pos h]

/-- C8 witness: the amended footprint formula applied at N = 65. -/
theorem storage_footprint_witness : sizeof_storage 65 = 8 * ((65 + 63) / 64) :=
  (storage_footprint 65).2.2.1 (by decide)

/-- C9: `test`, `set(pos)`, `reset(pos)` and `flip(pos)` route every bit
access through `get_word`'s `assert(pos < size())`, so an out-of-range
index fails the assertion (modelled as `Option.none`) instead of being
wrapped or clamped; and under the precondition `pos < N` the computed
word index `pos / word_width` is within the storage array bounds. -/
theorem index_contract (N : Nat) (bs : List Nat) (pos : Nat) (v : Bool) :
    (N ≤ pos →
      test_checked N bs pos = Option.none ∧
      set_pos_checked N bs pos v = Option.none ∧
      reset_pos_checked N bs pos = Option.none ∧
      flip_pos_checked N bs pos = Option.none) ∧
    (pos < N → which_word N pos < arr_size N) := by
  constructor
  · intro h
    have hn : ¬ pos < N := Nat.not_lt.mpr h
    refine ⟨?_, ?_, ?_, ?_⟩ <;>
      simp [test_checked, set_pos_checked, reset_pos_checked, flip_pos_checked, hn]
  · exact fun h => which_word_lt h

/-- C9 witness: the contract applied at N = 3 with the out-of-range
index 5 and the in-range index 2. -/
theorem index_contract_witness :
    (test_checked 3 [0] 5 = Option.none ∧
     set_pos_checked 3 [0] 5 true = Option.none ∧
     reset_pos_checked 3 [0] 5 = Option.none ∧
     flip_pos_checked 3 [0] 5 = Option.none) ∧
    which_word 3 2 < arr_size 3 :=
  ⟨(index_contract 3 [0] 5 true).1 (by decide),
   (index_contract 3 [0] 2 true).2 (by decide)⟩

/-- C4: for every N, every storage state, and every pos, q in [0, N)
with q ≠ pos: after the bulk `reset()` followed by `set(pos)`,
`test(pos)` returns true and `test(q)` returns false. -/
theorem reset_then_set_pos (N : Nat) (bs : List Nat) (pos q : Nat)
    (hlen : bs.length = arr_size N) (hpos : pos < N) (hq : q < N) (hne : q ≠ pos) :
    test N (set_pos N (reset N bs) pos true) pos = true ∧
    test N (set_pos N (reset N bs) pos true) q = false := by
  have hwp : which_word N pos < (reset N bs).length := by
    rw [length_reset, hlen]
    exact which_word_lt hpos
  have hwq : which_word N q < (reset N bs).length := by
    rw [length_reset, hlen]
    exact which_word_lt hq
  have hz : ∀ t, t < (reset N bs).length → (reset N bs).getD t 0 = 0 := by
    intro t ht
    exact getD_reset (by rwa [length_reset] at ht)
  constructor
  · rw [test_eq, set_pos_true_eq, getD_set_self _ _ hwp, hz _ hwp, Nat.zero_or,
      mask_bit_eq]
    exact Nat.testBit_two_pow_self
  · rw [test_eq, set_pos_true_eq]
    by_cases hw : which_word N pos = which_word N q
    · rw [hw, getD_set_self _ _ hwq, hz _ hwq, Nat.zero_or, mask_bit_eq]
      exact Nat.testBit_two_pow_of_ne (Ne.symm (which_ne_of_ne hw.symm hne))
    · rw [getD_set_ne _ _ hw, hz _ hwq]
      exact Nat.zero_testBit _

/-- C4 witness: N = 2, starting state [3]; reset() then set(1) gives
test(1) = true and test(0) = false. -/
theorem reset_then_set_pos_witness :
    test 2 (set_pos 2 (reset 2 [3]) 1 true) 1 = true ∧
    test 2 (set_pos 2 (reset 2 [3]) 1 true) 0 = false :=
  reset_then_set_pos 2 [3] 1 0 (by decide) (by decide) (by decide) (by decide)

/-- C10: the single-bit mutators `set(pos, v)`, `reset(pos)` and
`flip(pos)` are frame-preserving: for q ≠ pos, both in [0, N), the value
of `test(q)` is unchanged by the call. -/
theorem single_bit_frame (N : Nat) (bs : List Nat) (pos q : Nat) (v : Bool)
    (hlen : bs.length = arr_size N) (hpos : pos < N) (hq : q < N) (hne : q ≠ pos) :
    test N (set_pos N bs pos v) q = test N bs q ∧
    test N (reset_pos N bs pos) q = test N bs q ∧
    test N (flip_pos N bs pos) q = test N bs q := by
  have hwp : which_word N pos < bs.length := by
    rw [hlen]
    exact which_word_lt hpos
  have hbq : which_bit N q < bits_per_word N := which_bit_lt N q
  have frame : ∀ W : Nat,
      (which_word N pos = which_word N q →
        Nat.testBit W (which_bit N q)
          = Nat.testBit (bs.getD (which_word N q) 0) (which_bit N q)) →
      Nat.testBit ((bs.set (which_word N pos) W).getD (which_word N q) 0)
          (which_bit N q)
        = Nat.testBit (bs.getD (which_word N q) 0) (which_bit N q) := by
    intro W hW
    by_cases hw : which_word N pos = which_word N q
    · rw [hw] at hwp ⊢
      rw [getD_set_self _ _ hwp]
      exact hW hw
    · rw [getD_set_ne _ _ hw]
  have hbne : which_word N pos = which_word N q →
      which_bit N pos ≠ which_bit N q :=
    fun hw => Ne.symm (which_ne_of_ne hw.symm hne)
  have htrue : test N (set_pos N bs pos true) q = test N bs q := by
    rw [test_eq, test_eq, set_pos_true_eq]
    apply frame
    intro hw
    rw [hw, Nat.testBit_or, mask_bit_eq, Nat.testBit_two_pow_of_ne (hbne hw),
      Bool.or_false]
  have hfalse : test N (set_pos N bs pos false) q = test N bs q := by
    rw [test_eq, test_eq, set_pos_false_eq]
    apply frame
    intro hw
    rw [hw, Nat.testBit_and, Nat.testBit_xor, mask_bit_eq,
      Nat.testBit_two_pow_of_ne (hbne hw), testBit_all_ones, decide_eq_true hbq]
    simp
  have hflip : test N (flip_pos N bs pos) q = test N bs q := by
    rw [test_eq, test_eq]
    apply frame
    intro hw
    rw [hw, Nat.testBit_xor, mask_bit_eq, Nat.testBit_two_pow_of_ne (hbne hw),
      Bool.xor_false]
  refine ⟨?_, hfalse, hflip⟩
  cases v with
  | false => exact hfalse
  | true => exact htrue

/-- C10 witness: N = 9, state [0x1FF]; setting, resetting or flipping
bit 3 leaves test(5) unchanged. -/
theorem single_bit_frame_witness :
    test 9 (set_pos 9 [0x1FF] 3 true) 5 = test 9 [0x1FF] 5 ∧
    test 9 (reset_pos 9 [0x1FF] 3) 5 = test 9 [0x1FF] 5 ∧
    test 9 (flip_pos 9 [0x1FF] 3) 5 = test 9 [0x1FF] 5 :=
  single_bit_frame 9 [0x1FF] 3 5 true (by decide) (by decide) (by decide) (by decide)

theorem getD_mk_zero {N t : Nat} (ht : t < arr_size N) : (mk_zero N).getD t 0 = 0 :=
  getD_replicate 0 0 ht

theorem length_mk_zero (N : Nat) : (mk_zero N).length = arr_size N := by
  simp [mk_zero]

/-- C5: `find_first_one()` on the all-zero `Bitset<N>` returns N (the
one-past-the-end sentinel), and on the state with exactly one bit set at
position k (`set(k)` on the zero state) it returns k, the scan finding
the bit via count-trailing-zeros on its word. -/
theorem find_first_one_spec (N k : Nat) (hk : k < N) :
    find_first_one N (mk_zero N) = N ∧
    find_first_one N (set_pos N (mk_zero N) k true) = k := by
  have harr : which_word N k < arr_size N := which_word_lt hk
  have hlen : (mk_zero N).length = arr_size N := length_mk_zero N
  constructor
  · exact find_first_one_go_all_zero N _ 0 (fun w hw => List.eq_of_mem_replicate hw)
  · rw [find_first_one, set_pos_true_eq]
    have hval : ((mk_zero N).set (which_word N k)
        ((mk_zero N).getD (which_word N k) 0 ||| mask_bit N k)).getD (which_word N k) 0
        = 2 ^ which_bit N k := by
      rw [getD_set_self _ _ (by rw [hlen]; exact harr), getD_mk_zero harr, Nat.zero_or,
        mask_bit_eq]
    rw [find_first_one_go_spec N (which_word N k) _ 0 ?_ ?_ ?_]
    · rw [hval, countr_zero_eq Nat.testBit_two_pow_self
        (fun i hi => Nat.testBit_two_pow_of_ne (by omega)) (which_bit_lt N k),
        Nat.zero_add]
      show which_bit N k + which_word N k * bits_per_word N = k
      exact Nat.mod_add_div' k (bits_per_word N)
    · intro t ht
      rw [getD_set_ne _ _ (by omega), getD_mk_zero (by omega)]
    · rw [hval]
      exact (Nat.pos_pow_of_pos _ (by decide)).ne'
    · rw [List.length_set, hlen]
      exact harr

/-- C5 witness: N = 65; the all-zero set yields 65, and with only bit 64
set the scan yields 64. -/
theorem find_first_one_spec_witness :
    find_first_one 65 (mk_zero 65) = 65 ∧
    find_first_one 65 (set_pos 65 (mk_zero 65) 64 true) = 64 :=
  find_first_one_spec 65 64 (by decide)

theorem set_bulk_eq {N m : Nat} (h : 0 < arr_size N)
    (hm : get_msb_mask N = some m) :
    set N (mk_zero N) =
      some ((List.replicate (arr_size N) (all_ones N)).set (arr_size N - 1) m) := by
  unfold set apply_msb_mask mk_zero
  rw [List.map_replicate, hm, Option.map_some', getD_replicate _ _ (by omega),
    land_all_ones (get_msb_mask_lt hm)]

theorem allones_set_getD_lt {N m t : Nat} (h : t < arr_size N - 1) :
    ((List.replicate (arr_size N) (all_ones N)).set (arr_size N - 1) m).getD t 0
      = all_ones N := by
  rw [getD_set_ne _ _ (by omega), getD_replicate _ _ (by omega)]

theorem allones_set_getD_msb {N m : Nat} (h : 0 < arr_size N) :
    ((List.replicate (arr_size N) (all_ones N)).set (arr_size N - 1) m).getD
      (arr_size N - 1) 0 = m :=
  getD_set_self _ _ (by rw [List.length_replicate]; omega)

theorem ffz_allones_masked (N m : Nat) (hN : 0 < N)
    (hm : get_msb_mask N = some m) :
    find_first_zero N
      ((List.replicate (arr_size N) (all_ones N)).set (arr_size N - 1) m) = N := by
  have harr : 0 < arr_size N := by
    unfold arr_size
    omega
  by_cases hbs : N = bits_in_storage N
  · have hmm : all_ones N = m := by
      rw [get_msb_mask_exact hbs] at hm
      exact Option.some_inj.mp hm
    apply find_first_zero_go_all_ones
    intro w hw
    rcases List.mem_or_eq_of_mem_set hw with h | h
    · exact List.eq_of_mem_replicate h
    · rw [h, ← hmm]
  · have hsm : N % bits_per_word N < 31 := by
      by_contra hge
      rw [get_msb_mask_ub hbs hge] at hm
      exact Option.noConfusion hm
    have hmm : 2 ^ (N % bits_per_word N) - 1 = m := by
      rw [get_msb_mask_small hbs hsm] at hm
      exact Option.some_inj.mp hm
    have hmaskne : m ≠ all_ones N := by
      rw [← hmm, all_ones_eq]
      have hlt : 2 ^ (N % bits_per_word N) < 2 ^ bits_per_word N :=
        Nat.pow_lt_pow_right (by decide) (Nat.mod_lt _ (bits_per_word_pos N))
      have h1 : 0 < 2 ^ (N % bits_per_word N) := Nat.pos_pow_of_pos _ (by decide)
      omega
    have hcnt : countr_one (bits_per_word N) m = N % bits_per_word N := by
      rw [← hmm]
      refine countr_one_eq ?_ ?_ (Nat.mod_lt _ (bits_per_word_pos N))
      · rw [Nat.testBit_two_pow_sub_one]
        simp
      · intro i hi
        rw [Nat.testBit_two_pow_sub_one]
        exact decide_eq_true hi
    rw [find_first_zero, find_first_zero_go_spec N (arr_size N - 1) _ 0 ?_ ?_ ?_]
    · rw [allones_set_getD_msb harr, hcnt, Nat.zero_add]
      have hsplit := msb_split hN (by rwa [bits_in_storage_eq] at hbs)
      omega
    · intro t ht
      exact allones_set_getD_lt ht
    · rw [allones_set_getD_msb harr]
      exact hmaskne
    · rw [List.length_set, List.length_replicate]
      omega

theorem ffz_allones_masked_reset (N k m : Nat) (hk : k < N)
    (hm : get_msb_mask N = some m) :
    find_first_zero N
      (reset_pos N
        ((List.replicate (arr_size N) (all_ones N)).set (arr_size N - 1) m) k)
      = k := by
  have hN : 0 < N := by omega
  have harr : 0 < arr_size N := by
    unfold arr_size
    omega
  have hwk : which_word N k < arr_size N := which_word_lt hk
  have hbk : which_bit N k < bits_per_word N := which_bit_lt N k
  have hk_eq : which_word N k * bits_per_word N + which_bit N k = k := by
    unfold which_word which_bit
    rw [Nat.mul_comm]
    exact Nat.div_add_mod k (bits_per_word N)
  have hSlen : ((List.replicate (arr_size N) (all_ones N)).set
      (arr_size N - 1) m).length = arr_size N := by
    rw [List.length_set, List.length_replicate]
  rw [find_first_zero]
  show find_first_zero_go N 0
    (set_pos N ((List.replicate (arr_size N) (all_ones N)).set (arr_size N - 1) m)
      k false) = k
  rw [set_pos_false_eq]
  have hw0 : ∀ i, i < which_bit N k →
      Nat.testBit (((List.replicate (arr_size N) (all_ones N)).set
        (arr_size N - 1) m).getD (which_word N k) 0) i = true := by
    intro i hi
    by_cases hmsb : which_word N k = arr_size N - 1
    · rw [hmsb, allones_set_getD_msb harr, testBit_get_msb_mask hm]
      by_cases hbs : N = bits_in_storage N
      · rw [if_pos hbs]
        exact decide_eq_true (by omega)
      · rw [if_neg hbs]
        have hsplit := msb_split hN (by rwa [bits_in_storage_eq] at hbs)
        have hlt2 : (arr_size N - 1) * bits_per_word N + which_bit N k < N := by
          rw [← hmsb, hk_eq]
          exact hk
        exact decide_eq_true (by omega)
    · rw [allones_set_getD_lt (by omega), testBit_all_ones]
      exact decide_eq_true (by omega)
  have hWbit : ∀ i,
      Nat.testBit ((((List.replicate (arr_size N) (all_ones N)).set
          (arr_size N - 1) m).getD (which_word N k) 0) &&&
        (all_ones N ^^^ mask_bit N k)) i =
      (Nat.testBit (((List.replicate (arr_size N) (all_ones N)).set
          (arr_size N - 1) m).getD (which_word N k) 0) i &&
        (decide (i < bits_per_word N) ^^ decide (which_bit N k = i))) := by
    intro i
    rw [Nat.testBit_and, Nat.testBit_xor, testBit_all_ones, mask_bit_eq,
      Nat.testBit_two_pow]
  have hW0 : Nat.testBit ((((List.replicate (arr_size N) (all_ones N)).set
      (arr_size N - 1) m).getD (which_word N k) 0) &&&
      (all_ones N ^^^ mask_bit N k)) (which_bit N k) = false := by
    rw [hWbit, decide_eq_true hbk, decide_eq_true (rfl : which_bit N k = which_bit N k)]
    simp
  have hWne : (((List.replicate (arr_size N) (all_ones N)).set
      (arr_size N - 1) m).getD (which_word N k) 0) &&&
      (all_ones N ^^^ mask_bit N k) ≠ all_ones N := by
    intro h
    have := hW0
    rw [h, testBit_all_ones, decide_eq_true hbk] at this
    exact absurd this (by decide)
  have hcnt : countr_one (bits_per_word N)
      ((((List.replicate (arr_size N) (all_ones N)).set
        (arr_size N - 1) m).getD (which_word N k) 0) &&&
        (all_ones N ^^^ mask_bit N k)) = which_bit N k := by
    refine countr_one_eq hW0 ?_ hbk
    intro i hi
    rw [hWbit, hw0 i hi, decide_eq_true (by omega : i < bits_per_word N),
      decide_eq_false (by omega : ¬ which_bit N k = i)]
    rfl
  rw [find_first_zero_go_spec N (which_word N k) _ 0 ?_ ?_ ?_]
  · rw [getD_set_self _ _ (by rw [hSlen]; exact hwk), hcnt, Nat.zero_add]
    show which_bit N k + which_word N k * bits_per_word N = k
    exact Nat.mod_add_div' k (bits_per_word N)
  · intro t ht
    rw [getD_set_ne _ _ (by omega)]
    exact allones_set_getD_lt (by omega)
  · rw [getD_set_self _ _ (by rw [hSlen]; exact hwk)]
    exact hWne
  · rw [List.length_set, hSlen]
    exact hwk

/-- C6 counterexample: for N = 40 the bulk `set()` has no defined
result — its MSB mask shifts the 32-bit `int` literal `1` by 40 — so
`find_first_zero()` on "an all-ones Bitset<40> obtained via set()"
cannot return 40: the whole computation is undefined. -/
theorem find_first_zero_undef_counterexample :
    (set 40 (mk_zero 40)).map (fun S => find_first_zero 40 S) = Option.none := by
  decide

/-- C6 (amended): for every N whose bulk-`set()` mask computation is
defined (total storage width equal to N, or N mod word_width ≤ 30),
`find_first_zero()` on the all-ones `Bitset<N>` obtained via `set()`
returns N, and after `set()` followed by `reset(k)` it returns k, the
scan using count-trailing-ones on the first word that is not
all-ones. -/
theorem find_first_zero_spec (N k : Nat) (hk : k < N)
    (hdef : get_msb_mask N ≠ Option.none) :
    (set N (mk_zero N)).map (fun S => find_first_zero N S) = some N ∧
    (set N (mk_zero N)).map (fun S => find_first_zero N (reset_pos N S k))
      = some k := by
  obtain ⟨m, hm⟩ : ∃ m, get_msb_mask N = some m := by
    cases hval : get_msb_mask N with
    | none => exact absurd hval hdef
    | some m => exact ⟨m, rfl⟩
  have harr : 0 < arr_size N := by
    unfold arr_size
    omega
  rw [set_bulk_eq harr hm]
  simp only [Option.map_some']
  exact ⟨congrArg some (ffz_allones_masked N m (by omega) hm),
    congrArg some (ffz_allones_masked_reset N k m hk hm)⟩

/-- C6 witness: N = 65 (mask defined, value 0x0001); `set()` then
`find_first_zero()` yields 65, and after additionally clearing bit 64
it yields 64. -/
theorem find_first_zero_spec_witness :
    (set 65 (mk_zero 65)).map (fun S => find_first_zero 65 S) = some 65 ∧
    (set 65 (mk_zero 65)).map (fun S => find_first_zero 65 (reset_pos 65 S 64))
      = some 64 :=
  find_first_zero_spec 65 64 (by decide) (by decide)

theorem getD_append_length (l : List Nat) (a d : Nat) :
    (l ++ [a]).getD l.length d = a := by
  rw [List.getD_eq_getElem?_getD, List.getElem?_append_right (Nat.le_refl _)]
  simp

/-- C7 counterexample: for N = 65 and the reading-order word array
[2^63, 0], the most-significant bit (bit 63) of the first array element
is 1, yet bit N−1 = 64 of the constructed `Bitset<65>` reads 0: the top
bit of the bitset is not the MSB of the first supplied word. -/
theorem of_words_msb_counterexample :
    Nat.testBit (2 ^ 63) 63 = true ∧
    (of_words 65 [2 ^ 63, 0]).map (fun M => test 65 M (65 - 1)) = some false := by
  decide

/-- C7 (amended): for every N > 64 for which the constructor's mask
computation is defined (64 divides N, or N mod 64 ≤ 30) and every word
array of length ceil(N/64) supplied in reading order, bit N−1 of the
constructed bitset equals bit (N−1) mod 64 of the first array element —
the highest retained bit of that word, which coincides with its literal
MSB (bit 63) exactly when N is a multiple of 64. -/
theorem of_words_top_bit (N a : Nat) (t : List Nat)
    (hN : 64 < N) (hlen : (a :: t).length = arr_size N)
    (hdef : get_msb_mask N ≠ Option.none) :
    (of_words N (a :: t)).map (fun M => test N M (N - 1))
      = some (Nat.testBit a ((N - 1) % 64)) := by
  obtain ⟨m, hm⟩ : ∃ m, get_msb_mask N = some m := by
    cases hval : get_msb_mask N with
    | none => exact absurd hval hdef
    | some m => exact ⟨m, rfl⟩
  have hbpw : bits_per_word N = 64 := by
    unfold bits_per_word
    rw [if_pos (by omega : N > 32)]
  have harr2 : 2 ≤ arr_size N := by
    unfold arr_size
    omega
  have hrevlen : t.reverse.length = arr_size N - 1 := by
    rw [List.length_reverse]
    simp at hlen
    omega
  have hww : which_word N (N - 1) = arr_size N - 1 := by
    unfold which_word arr_size
    rw [hbpw]
    omega
  have hwb : which_bit N (N - 1) = (N - 1) % 64 := by
    unfold which_bit
    rw [hbpw]
  have hof : of_words N (a :: t) =
      some ((t.reverse ++ [a]).set (t.reverse.length) (a &&& m)) := by
    unfold of_words apply_msb_mask
    rw [List.reverse_cons, hm, Option.map_some', ← hrevlen, getD_append_length]
  rw [hof]
  simp only [Option.map_some']
  refine congrArg some ?_
  rw [test_eq, hww, hwb, ← hrevlen,
    getD_set_self _ _ (by rw [List.length_append, List.length_reverse]; simp),
    Nat.testBit_and, testBit_get_msb_mask hm, hbpw]
  have hmask : (decide ((N - 1) % 64 <
      if N = bits_in_storage N then 64 else N % 64)) = true := by
    by_cases hbs : N = bits_in_storage N
    · rw [if_pos hbs]
      exact decide_eq_true (by omega)
    · rw [if_neg hbs]
      rw [bits_in_storage_eq, hbpw] at hbs
      unfold arr_size at hbs
      exact decide_eq_true (by omega)
  rw [hmask, Bool.and_true]

/-- C7 witness: the amended round-trip applied at N = 65 (mask defined)
with the reading-order array [3, 7]: bit 64 of the bitset equals bit 0
of the first element. -/
theorem of_words_top_bit_witness :
    (of_words 65 [3, 7]).map (fun M => test 65 M (65 - 1))
      = some (Nat.testBit 3 ((65 - 1) % 64)) :=
  of_words_top_bit 65 3 [7] (by decide) (by decide) (by decide)

end Bitset
